import Mathlib

set_option autoImplicit false

/-!
Shallow embedding of `src/2_RDKit/3_Descriptors/src/utils.py`
(`Molecule`, `MolecularPropertiesCalculator`) and theorems settling the
claims about it.

External chemistry capabilities are parameters of the embedding:
* `parse : String → Option Mol` models `MolFromSmiles` (None = unparseable);
* `getDesc : String → Option (Mol → Option Value)` models
  `getattr(Descriptors, desc_name, None)`; the outer `Option` is attribute
  absence, the inner `Option` on application is "raised during computation";
* `strRep : Mol → String` models Python `str(item)`.

Descriptor outputs are Python floats carrying no arithmetic in the claims;
they are modelled by an opaque numeric type `Value := Int`.

Python `dict` assignment `d[k] = v` keeps the original position of an
existing key and appends a fresh key; `dictInsert` reproduces that on an
ordered association list.  Exceptions are modelled with `Except`:
`KeyError` for the unknown-descriptor check, `nameError` for the
`UnboundLocalError` on `key`, `typeError` for `{**None, ...}` in
`to_dataframe`.
-/

namespace MolProps

/-- Descriptor values (floats in the source, opaque here). -/
abbrev Value := Int

/-- The pair of display names of one registry entry
(`{'full': ..., 'abbrev': ...}`). -/
structure PropNames where
  full : String
  ab : String
deriving DecidableEq, Repr

/-- The static property registry `self.properties` built in
`MolecularPropertiesCalculator.__init__` (utils.py lines 21-32). -/
def properties : List (String × PropNames) :=
  [ ("MolWt", ⟨"Molecular Weight", "MW"⟩)
  , ("MolLogP", ⟨"LogP", "LogP"⟩)
  , ("NumHDonors", ⟨"H-bond Donors", "HBD"⟩)
  , ("NumHAcceptors", ⟨"H-bond Acceptors", "HBA"⟩)
  , ("NumRotatableBonds", ⟨"Rotatable Bonds", "RB"⟩)
  , ("NumAromaticRings", ⟨"Aromatic Rings", "AR"⟩)
  , ("TPSA", ⟨"TPSA", "TPSA"⟩)
  , ("HeavyAtomCount", ⟨"Heavy Atom Count", "HAC"⟩)
  , ("FractionCSP3", ⟨"FractionCSP3", "FSP3"⟩)
  , ("LabuteASA", ⟨"Labute ASA", "ASA"⟩) ]

/-- The registry's canonical keys, `self.properties.keys()`. -/
def registryKeys : List String := properties.map Prod.fst

/-- Python dict assignment `d[k] = v` on an insertion-ordered dict:
an existing key keeps its position and gets the new value, a fresh key is
appended at the end. -/
def dictInsert {α : Type} (d : List (String × α)) (k : String) (v : α) :
    List (String × α) :=
  if d.any (fun p => p.1 == k) then
    d.map (fun p => if p.1 == k then (k, v) else p)
  else
    d ++ [(k, v)]

/-- The exceptions the embedded code can raise. -/
inductive CalcError where
  /-- `KeyError(f"Descriptor '{desc_name}' not found in properties.")`. -/
  | keyError (name : String)
  /-- `UnboundLocalError` on `key` (a `NameError`), escaping the handler. -/
  | nameError
  /-- `TypeError` from `{**molecule.properties, ...}` when `properties`
  is `None`. -/
  | typeError
deriving DecidableEq, Repr

/-- `properties_to_calculate = properties if properties else
self.properties.keys()` (utils.py line 75): Python truthiness, so both
`None` and the empty list select all registry keys. -/
def effectiveKeys (props : Option (List String)) : List String :=
  match props with
  | some (k :: ks) => k :: ks
  | _ => registryKeys

section Engine

variable {Mol : Type}

/-- The loop body of `_calculate_for_molecule` (utils.py lines 76-88),
with the local variable `key` made explicit as `keyVar : Option String`
(`none` = not yet bound).  On the `descriptor_func` = `None` branch the
source writes `result[key] = None` with `key` from a previous iteration;
with `keyVar = none` that read raises `UnboundLocalError`, which the
`except Exception` handler re-raises by performing the same read. -/
def calcGo (getDesc : String → Option (Mol → Option Value)) (ab : Bool)
    (mol : Mol) :
    List String → Option String → List (String × Option Value) →
    Except CalcError (List (String × Option Value))
  | [], _, result => .ok result
  | descName :: rest, keyVar, result =>
    match properties.find? (fun p => p.1 == descName) with
    | none => .error (.keyError descName)
    | some entry =>
      match getDesc descName with
      | some f =>
        let key := if ab then entry.2.ab else entry.2.full
        match f mol with
        | some v => calcGo getDesc ab mol rest (some key)
            (dictInsert result key (some v))
        | none => calcGo getDesc ab mol rest (some key)
            (dictInsert result key none)
      | none =>
        match keyVar with
        | some k => calcGo getDesc ab mol rest keyVar
            (dictInsert result k none)
        | none => .error .nameError

/-- `MolecularPropertiesCalculator._calculate_for_molecule`
(utils.py lines 73-89). -/
def calcForMolecule (getDesc : String → Option (Mol → Option Value))
    (ab : Bool) (props : Option (List String)) (mol : Mol) :
    Except CalcError (List (String × Option Value)) :=
  calcGo getDesc ab mol (effectiveKeys props) none []

end Engine

/-- The pydantic model `Molecule` (utils.py lines 6-15). -/
structure Molecule where
  name : String
  smiles : Option String := none
  properties : Option (List (String × Option Value)) := none
deriving DecidableEq, Repr

/-- The `validate_smiles` validator of `Molecule` (utils.py lines 11-15):
a non-`None` `smiles` must parse. -/
def validSmiles {Mol : Type} (parse : String → Option Mol)
    (m : Molecule) : Bool :=
  match m.smiles with
  | none => true
  | some s => (parse s).isSome

/-- One value of the `results` mapping:
`{'smiles': ..., 'properties': ...}`. -/
structure ResultEntry where
  smiles : Option String
  properties : Option (List (String × Option Value))
deriving DecidableEq, Repr

/-- The `results` dict built by `calculate`. -/
abbrev Results := List (String × ResultEntry)

/-- The accumulated `self.molecule_set`. -/
abbrev MolSet := List Molecule

/-- One normalized input entry: a `(name, smiles)` pair coming from a
dict, or an already-parsed molecule object. -/
inductive Entry (Mol : Type) where
  | named (name : String) (smiles : String)
  | obj (m : Mol)
deriving DecidableEq

/-- An element of a list-shaped `input_data`. -/
inductive InputItem (Mol : Type) where
  | dict (pairs : List (String × String))
  | mol (m : Mol)
deriving DecidableEq

/-- The four accepted shapes of `input_data`
(`Union[Dict[str, str], List[...]]` or a single molecule object). -/
inductive InputData (Mol : Type) where
  | list (items : List (InputItem Mol))
  | dict (pairs : List (String × String))
  | mol (m : Mol)
deriving DecidableEq

section Engine2

variable {Mol : Type}

/-- The iteration order of `calculate` over `input_data`
(utils.py lines 37-66): a list is walked item by item, dict items yield
their pairs in order, non-dict items are molecule objects; a dict yields
its pairs; anything else is a single molecule object. -/
def entriesOf : InputData Mol → List (Entry Mol)
  | .list items => items.flatMap (fun it =>
      match it with
      | .dict ps => ps.map (fun p => Entry.named p.1 p.2)
      | .mol m => [Entry.obj m])
  | .dict ps => ps.map (fun p => Entry.named p.1 p.2)
  | .mol m => [Entry.obj m]

/-- Processing of one normalized entry inside `calculate`: parse (for
named entries), evaluate descriptors, record into `results` and append
to `self.molecule_set`.  On a raised exception neither structure is
touched for this entry (the assignment and the append sit after the
`_calculate_for_molecule` call in the source). -/
def processEntry (parse : String → Option Mol) (strRep : Mol → String)
    (getDesc : String → Option (Mol → Option Value)) (ab : Bool)
    (props : Option (List String)) (res : Results) (mset : MolSet) :
    Entry Mol → Except CalcError (Results × MolSet)
  | .named n s =>
    match parse s with
    | some mol =>
      match calcForMolecule getDesc ab props mol with
      | .ok p =>
        .ok (dictInsert res n ⟨some s, some p⟩,
          mset ++ [⟨n, some s, some p⟩])
      | .error e => .error e
    | none => .ok (dictInsert res n ⟨some s, none⟩, mset)
  | .obj m =>
    match calcForMolecule getDesc ab props m with
    | .ok p =>
      .ok (dictInsert res (strRep m) ⟨none, some p⟩,
        mset ++ [⟨strRep m, none, some p⟩])
    | .error e => .error e

/-- The main loop of `calculate` over the normalized entries.  A raised
exception propagates: the local `results` is lost, while
`self.molecule_set` keeps whatever was appended before the raise, so the
fold returns the molecule set in both outcomes. -/
def processEntries (parse : String → Option Mol) (strRep : Mol → String)
    (getDesc : String → Option (Mol → Option Value)) (ab : Bool)
    (props : Option (List String)) :
    List (Entry Mol) → Results → MolSet →
    Except CalcError Results × MolSet
  | [], res, mset => (.ok res, mset)
  | e :: rest, res, mset =>
    match processEntry parse strRep getDesc ab props res mset e with
    | .ok (res', mset') =>
      processEntries parse strRep getDesc ab props rest res' mset'
    | .error err => (.error err, mset)

end Engine2

/-- A cell of the exported table: a descriptor value or a smiles string,
`none` for Python `None`. -/
abbrev Cell := Option (Sum Value String)

/-- One row of the exported table. -/
abbrev Row := List (String × Cell)

/-- The `data` dict of `to_dataframe`, rows keyed by molecule name. -/
abbrev Table := List (String × Row)

instance : DecidableEq Table := fun _ _ => inferInstance

/-- `{**molecule.properties, **{'smiles': molecule.smiles}}`
(utils.py line 93), for a molecule whose `properties` is a dict. -/
def rowOf (props : List (String × Option Value)) (smiles : Option String) :
    Row :=
  dictInsert (props.map (fun p => (p.1, p.2.map Sum.inl))) "smiles"
    (smiles.map Sum.inr)

/-- The dict comprehension of `to_dataframe` (utils.py lines 92-95):
one entry per molecule keyed by name (duplicates overwrite); a molecule
with `properties = None` makes `{**molecule.properties, ...}` raise
`TypeError`. -/
def toDataframeGo : MolSet → Table → Except CalcError Table
  | [], data => .ok data
  | m :: rest, data =>
    match m.properties with
    | none => .error .typeError
    | some ps => toDataframeGo rest (dictInsert data m.name (rowOf ps m.smiles))

/-- `MolecularPropertiesCalculator.to_dataframe` (utils.py lines 91-96). -/
def toDataframe (mset : MolSet) : Except CalcError Table :=
  toDataframeGo mset []

/-- The value returned by `calculate`: the `results` mapping or the
exported table. -/
inductive Output where
  | map (res : Results)
  | table (t : Table)
deriving DecidableEq, Repr

/-- `MolecularPropertiesCalculator.calculate` (utils.py lines 35-71),
with the mutable `self.molecule_set` threaded explicitly: the call takes
the accumulated molecule set and returns the outcome together with the
molecule set after the call (unchanged relative to the appends performed
before a raise). -/
def calculate {Mol : Type} (parse : String → Option Mol)
    (strRep : Mol → String)
    (getDesc : String → Option (Mol → Option Value)) (ab : Bool)
    (asDf : Bool) (input : InputData Mol) (props : Option (List String))
    (mset : MolSet) : Except CalcError Output × MolSet :=
  let r := processEntries parse strRep getDesc ab props (entriesOf input) [] mset
  match r.1 with
  | .error e => (.error e, r.2)
  | .ok res =>
    if asDf then
      match toDataframe r.2 with
      | .ok t => (.ok (.table t), r.2)
      | .error e => (.error e, r.2)
    else
      (.ok (.map res), r.2)

/-- The name under which an entry is recorded in `results`. -/
def entryNames {Mol : Type} (strRep : Mol → String)
    (entries : List (Entry Mol)) : List String :=
  entries.map (fun e =>
    match e with
    | .named n _ => n
    | .obj m => strRep m)

/-- The names produced by the Input Normalizer, in iteration order. -/
def inputNames {Mol : Type} (strRep : Mol → String)
    (input : InputData Mol) : List String :=
  entryNames strRep (entriesOf input)

/-- The Structure Record `calculate` appends to `self.molecule_set` for
one entry, if any: parse failures append nothing, successfully evaluated
entries append one record. -/
def newRecord {Mol : Type} (parse : String → Option Mol)
    (strRep : Mol → String)
    (getDesc : String → Option (Mol → Option Value)) (ab : Bool)
    (props : Option (List String)) : Entry Mol → Option Molecule
  | .named n s =>
    (parse s).bind (fun m => (calcForMolecule getDesc ab props m).toOption.map
      (fun p => ⟨n, some s, some p⟩))
  | .obj m =>
    (calcForMolecule getDesc ab props m).toOption.map
      (fun p => ⟨strRep m, none, some p⟩)

/-- The display name the calculator resolves for a requested key. -/
def resolveName (ab : Bool) (d : String) : String :=
  match properties.find? (fun p => p.1 == d) with
  | some e => if ab then e.2.ab else e.2.full
  | none => d

/-- The first requested key that is absent from the registry. -/
def firstUnknown (ks : List String) : Option String :=
  ks.find? (fun d => (properties.find? (fun p => p.1 == d)).isNone)

/-- Whether `calculate` evaluates descriptors for an entry: object
entries always do, named entries only when their identifier parses. -/
def reaches {Mol : Type} (parse : String → Option Mol) :
    Entry Mol → Bool
  | .named _ s => (parse s).isSome
  | .obj _ => true

/-! ### Concrete backend used to instantiate hypotheses

A toy chemistry capability over `Mol := Nat`: the string `"bad"` is the
one unparseable identifier, every descriptor attribute is present and
returns the molecule itself. `exDescNoASA` is the same backend with the
`LabuteASA` attribute removed. -/

def exParse : String → Option Nat :=
  fun s => if s == "bad" then none else some s.length

def exStr : Nat → String := fun n => toString n

def exDescAll : String → Option (Nat → Option Value) :=
  fun _ => some (fun n => some (n : Int))

def exDescNoASA : String → Option (Nat → Option Value) :=
  fun k => if k == "LabuteASA" then none else some (fun n => some (n : Int))

/-! ### Correspondence between full-name and abbreviated-name runs

The relations below pair the data of an `abbrev=False` run (left) with
the data of an `abbrev=True` run (right): equal values, display names
drawn from the same registry entry. -/

/-- Pointwise relation on `Option`s. -/
def optRel {α β : Type} (r : α → β → Prop) : Option α → Option β → Prop
  | none, none => True
  | some a, some b => r a b
  | _, _ => False

/-- Two property mappings with identical values in identical positions,
keyed by the full (left) versus abbreviated (right) display name of the
same registry entry. -/
def pairedProps (rf ra : List (String × Option Value)) : Prop :=
  List.Forall₂ (fun qf qa => qf.2 = qa.2 ∧
    ∃ e ∈ properties, qf.1 = e.2.full ∧ qa.1 = e.2.ab) rf ra

/-- The `key` loop variables of the two runs: both unbound, or bound to
the two display names of one registry entry. -/
def pairedKey : Option String → Option String → Prop
  | none, none => True
  | some kf, some ka => ∃ e ∈ properties, kf = e.2.full ∧ ka = e.2.ab
  | _, _ => False

/-- Outcomes of `_calculate_for_molecule` under the two namings: equal
exceptions, or paired property mappings. -/
def pairedCalc : Except CalcError (List (String × Option Value)) →
    Except CalcError (List (String × Option Value)) → Prop
  | .ok rf, .ok ra => pairedProps rf ra
  | .error ef, .error ea => ef = ea
  | _, _ => False

/-- Result-mapping values of the two runs: same identifier, paired
property mappings. -/
def pairedEntry (vf va : ResultEntry) : Prop :=
  vf.smiles = va.smiles ∧
    optRel pairedProps vf.properties va.properties

/-- Result mappings of the two runs: same names in the same order,
paired values. -/
def pairedResults (rf ra : Results) : Prop :=
  List.Forall₂ (fun pf pa => pf.1 = pa.1 ∧ pairedEntry pf.2 pa.2) rf ra

/-- Structure Records of the two runs. -/
def pairedMol (mf ma : Molecule) : Prop :=
  mf.name = ma.name ∧ mf.smiles = ma.smiles ∧
    optRel pairedProps mf.properties ma.properties

/-- Molecule sets of the two runs. -/
def pairedMolSet : MolSet → MolSet → Prop := List.Forall₂ pairedMol

/-- Main-loop outcomes of the two runs. -/
def pairedLoop (x y : Except CalcError Results × MolSet) : Prop :=
  (match x.1, y.1 with
   | .ok rf, .ok ra => pairedResults rf ra
   | .error a, .error b => a = b
   | _, _ => False) ∧ pairedMolSet x.2 y.2

/-- `calculate` outcomes of the two runs (with `as_df` false). -/
def pairedOutcome (x y : Except CalcError Output × MolSet) : Prop :=
  (match x.1, y.1 with
   | .ok (.map rf), .ok (.map ra) => pairedResults rf ra
   | .error a, .error b => a = b
   | _, _ => False) ∧ pairedMolSet x.2 y.2

/-! ### Helper lemmas -/

/-- The key list of a Python dict after one assignment. -/
def insKey (ks : List String) (k : String) : List String :=
  if k ∈ ks then ks else ks ++ [k]

theorem dictInsert_keys {α : Type} (d : List (String × α)) (k : String)
    (v : α) :
    (dictInsert d k v).map Prod.fst = insKey (d.map Prod.fst) k := by
  unfold dictInsert insKey
  by_cases h : k ∈ d.map Prod.fst
  · rw [if_pos h]
    have hany : d.any (fun p => p.1 == k) = true := by
      rcases List.mem_map.1 h with ⟨p, hp, rfl⟩
      exact List.any_eq_true.2 ⟨p, hp, by simp⟩
    rw [if_pos hany, List.map_map]
    refine List.map_congr_left (fun p _ => ?_)
    by_cases hk : p.1 = k
    · simp [hk]
    · simp [hk]
  · have hany : d.any (fun p => p.1 == k) = false := by
      rw [List.any_eq_false]
      intro p hp
      simp only [beq_iff_eq]
      intro hk
      exact h (List.mem_map.2 ⟨p, hp, hk⟩)
    rw [if_neg h, hany]
    simp

theorem dictInsert_mem {α : Type} {d : List (String × α)} {k : String}
    {v : α} {p : String × α} (hp : p ∈ dictInsert d k v) :
    p = (k, v) ∨ p ∈ d := by
  unfold dictInsert at hp
  split at hp
  · rcases List.mem_map.1 hp with ⟨q, hq, rfl⟩
    by_cases hk : q.1 = k
    · left; simp [hk]
    · right; simpa [hk] using hq
  · rcases List.mem_append.1 hp with h | h
    · exact Or.inr h
    · exact Or.inl (by simpa using h)

/-- The error component of an `Except` outcome. -/
def errOf {α : Type} : Except CalcError α → Option CalcError
  | .error e => some e
  | .ok _ => none

instance {ε α : Type} [DecidableEq ε] [DecidableEq α] :
    DecidableEq (Except ε α) := fun a b =>
  match a, b with
  | .ok x, .ok y => decidable_of_iff (x = y) (by simp)
  | .error x, .error y => decidable_of_iff (x = y) (by simp)
  | .ok _, .error _ => isFalse (fun h => Except.noConfusion h)
  | .error _, .ok _ => isFalse (fun h => Except.noConfusion h)

section Lemmas

variable {Mol : Type}

/-- Whether `calcGo` raises, and which exception, does not depend on the
molecule nor on the result dict built so far: the control flow of the
descriptor loop is driven only by the requested keys, the registry, the
capability surface and the `key` variable. -/
theorem calcGo_errOf_indep (getDesc : String → Option (Mol → Option Value))
    (ab : Bool) (mol mol' : Mol) (ks : List String) (kv : Option String)
    (res res' : List (String × Option Value)) :
    errOf (calcGo getDesc ab mol ks kv res) =
      errOf (calcGo getDesc ab mol' ks kv res') := by
  induction ks generalizing kv res res' with
  | nil => rfl
  | cons d ds ih =>
    cases hfind : properties.find? (fun p => p.1 == d) with
    | none => simp only [calcGo, hfind]
    | some entry =>
      cases hdesc : getDesc d with
      | some f =>
        simp only [calcGo, hfind, hdesc]
        cases f mol <;> cases f mol' <;> exact ih _ _ _
      | none =>
        cases kv with
        | none => simp only [calcGo, hfind, hdesc]
        | some k =>
          simp only [calcGo, hfind, hdesc]
          exact ih _ _ _

/-- If the descriptor loop succeeds for one molecule it succeeds for
every molecule (same configuration). -/
theorem calcForMolecule_ok_indep
    (getDesc : String → Option (Mol → Option Value)) (ab : Bool)
    (props : Option (List String)) {mol : Mol}
    {p : List (String × Option Value)}
    (h : calcForMolecule getDesc ab props mol = .ok p) (mol' : Mol) :
    ∃ q, calcForMolecule getDesc ab props mol' = .ok q := by
  have := calcGo_errOf_indep getDesc ab mol mol' (effectiveKeys props)
    none [] []
  unfold calcForMolecule at h ⊢
  rw [h] at this
  cases hq : calcGo getDesc ab mol' (effectiveKeys props) none [] with
  | ok q => exact ⟨q, rfl⟩
  | error e => rw [hq] at this; exact absurd this (by simp [errOf])

/-- If the per-molecule evaluation succeeds for every molecule, the main
loop never raises. -/
theorem processEntries_ok_of_calcOk (parse : String → Option Mol)
    (strRep : Mol → String)
    (getDesc : String → Option (Mol → Option Value)) (ab : Bool)
    (props : Option (List String))
    (hok : ∀ m : Mol, ∃ q, calcForMolecule getDesc ab props m = .ok q)
    (entries : List (Entry Mol)) (res : Results) (mset : MolSet) :
    ∃ res', (processEntries parse strRep getDesc ab props entries res
      mset).1 = .ok res' := by
  induction entries generalizing res mset with
  | nil => exact ⟨res, rfl⟩
  | cons e rest ih =>
    cases e with
    | named n s =>
      cases hp : parse s with
      | none =>
        simp only [processEntries, processEntry, hp]
        exact ih _ _
      | some m =>
        rcases hok m with ⟨q, hq⟩
        simp only [processEntries, processEntry, hp, hq]
        exact ih _ _
    | obj m =>
      rcases hok m with ⟨q, hq⟩
      simp only [processEntries, processEntry, hq]
      exact ih _ _

/-- A raised exception in the main loop leaves the molecule set exactly
as it was at the start of the call: the first entry that reaches
descriptor evaluation raises before anything is appended, and entries
before it are parse failures, which never append. -/
theorem processEntries_error_mset (parse : String → Option Mol)
    (strRep : Mol → String)
    (getDesc : String → Option (Mol → Option Value)) (ab : Bool)
    (props : Option (List String)) (entries : List (Entry Mol))
    (res : Results) (mset : MolSet) {err : CalcError}
    (h : (processEntries parse strRep getDesc ab props entries res
      mset).1 = .error err) :
    (processEntries parse strRep getDesc ab props entries res mset).2 =
      mset := by
  induction entries generalizing res mset with
  | nil => simp [processEntries] at h
  | cons e rest ih =>
    cases e with
    | named n s =>
      cases hp : parse s with
      | none =>
        simp only [processEntries, processEntry, hp] at h ⊢
        exact ih _ _ h
      | some m =>
        cases hc : calcForMolecule getDesc ab props m with
        | error e' => simp only [processEntries, processEntry, hp, hc]
        | ok p =>
          simp only [processEntries, processEntry, hp, hc] at h ⊢
          exfalso
          rcases processEntries_ok_of_calcOk parse strRep getDesc ab props
            (calcForMolecule_ok_indep getDesc ab props hc) rest
            (dictInsert res n ⟨some s, some p⟩) (mset ++ [⟨n, some s, some p⟩])
            with ⟨res', hres'⟩
          rw [hres'] at h
          exact Except.noConfusion h
    | obj m =>
      cases hc : calcForMolecule getDesc ab props m with
      | error e' => simp only [processEntries, processEntry, hc]
      | ok p =>
        simp only [processEntries, processEntry, hc] at h ⊢
        exfalso
        rcases processEntries_ok_of_calcOk parse strRep getDesc ab props
          (calcForMolecule_ok_indep getDesc ab props hc) rest
          (dictInsert res (strRep m) ⟨none, some p⟩)
          (mset ++ [⟨strRep m, none, some p⟩]) with ⟨res', hres'⟩
        rw [hres'] at h
        exact Except.noConfusion h

/-- Splitting the main loop at a list decomposition. -/
theorem processEntries_append (parse : String → Option Mol)
    (strRep : Mol → String)
    (getDesc : String → Option (Mol → Option Value)) (ab : Bool)
    (props : Option (List String)) (l₁ l₂ : List (Entry Mol))
    (res : Results) (mset : MolSet) :
    processEntries parse strRep getDesc ab props (l₁ ++ l₂) res mset =
      match processEntries parse strRep getDesc ab props l₁ res mset with
      | (Except.ok res', mset') =>
        processEntries parse strRep getDesc ab props l₂ res' mset'
      | (Except.error e, mset') => (Except.error e, mset') := by
  induction l₁ generalizing res mset with
  | nil => simp [processEntries]
  | cons e rest ih =>
    cases hstep : processEntry parse strRep getDesc ab props res mset e with
    | ok pr =>
      obtain ⟨res', mset'⟩ := pr
      simp only [List.cons_append, processEntries, hstep]
      exact ih res' mset'
    | error err =>
      simp only [List.cons_append, processEntries, hstep]

/-- When the effective key list contains a key absent from the registry
and every known key's capability is present, the descriptor loop raises
`KeyError` naming the first absent key, for every molecule. -/
theorem calcGo_keyError (getDesc : String → Option (Mol → Option Value))
    (ab : Bool) (mol : Mol) (ks : List String) (kv : Option String)
    (res : List (String × Option Value)) {k : String}
    (h1 : firstUnknown ks = some k)
    (h2 : ∀ d ∈ ks, (properties.find? (fun p => p.1 == d)).isSome →
      (getDesc d).isSome) :
    calcGo getDesc ab mol ks kv res = .error (.keyError k) := by
  induction ks generalizing kv res with
  | nil => simp [firstUnknown] at h1
  | cons d ds ih =>
    cases hfind : properties.find? (fun p => p.1 == d) with
    | none =>
      have hk : d = k := by
        simpa [firstUnknown, List.find?_cons, hfind] using h1
      subst hk
      simp only [calcGo, hfind]
    | some entry =>
      have h1' : firstUnknown ds = some k := by
        simpa [firstUnknown, List.find?_cons, hfind] using h1
      have hds : (getDesc d).isSome := by
        exact h2 d (List.mem_cons_self d ds) (by simp [hfind])
      rcases Option.isSome_iff_exists.1 hds with ⟨f, hf⟩
      have h2' : ∀ d' ∈ ds,
          (properties.find? (fun p => p.1 == d')).isSome →
            (getDesc d').isSome :=
        fun d' hd' => h2 d' (List.mem_cons_of_mem d hd')
      cases hfm : f mol with
      | some v =>
        simp only [calcGo, hfind, hf, hfm]
        exact ih _ _ h1' h2'
      | none =>
        simp only [calcGo, hfind, hf, hfm]
        exact ih _ _ h1' h2'

/-- If some entry reaches descriptor evaluation and that evaluation
raises the same error for every molecule, the main loop returns exactly
that error with the molecule set untouched. -/
theorem processEntries_raises (parse : String → Option Mol)
    (strRep : Mol → String)
    (getDesc : String → Option (Mol → Option Value)) (ab : Bool)
    (props : Option (List String)) {err : CalcError}
    (hc : ∀ m : Mol, calcForMolecule getDesc ab props m = .error err)
    (entries : List (Entry Mol)) (res : Results) (mset : MolSet)
    (h3 : ∃ e ∈ entries, reaches parse e = true) :
    processEntries parse strRep getDesc ab props entries res mset =
      (.error err, mset) := by
  induction entries generalizing res mset with
  | nil => simp at h3
  | cons e rest ih =>
    cases e with
    | named n s =>
      cases hp : parse s with
      | none =>
        rcases h3 with ⟨e', he', hre'⟩
        rcases List.mem_cons.1 he' with rfl | he'
        · rw [reaches, hp] at hre'
          exact Bool.noConfusion hre'
        · simp only [processEntries, processEntry, hp]
          exact ih _ _ ⟨e', he', hre'⟩
      | some m =>
        simp only [processEntries, processEntry, hp, hc m]
    | obj m =>
      simp only [processEntries, processEntry, hc m]

theorem dictInsert_singleton_self {α : Type} (k : String) (v w : α) :
    dictInsert [(k, v)] k w = [(k, w)] := by
  simp [dictInsert]

/-- A key whose registry lookup succeeds is a registry key. -/
theorem mem_registryKeys_of_find {d : String}
    (h : (properties.find? (fun p => p.1 == d)).isSome) :
    d ∈ registryKeys := by
  rcases Option.isSome_iff_exists.1 h with ⟨p, hp⟩
  have hmem := List.mem_of_find?_eq_some hp
  have hpd := List.find?_some hp
  simp only [beq_iff_eq] at hpd
  exact hpd ▸ List.mem_map.2 ⟨p, hmem, rfl⟩

/-- With every requested key in the registry and every capability
present, the descriptor loop succeeds and its key trace is the fold of
dict insertions of the resolved display names. -/
theorem calcGo_ok_keys (getDesc : String → Option (Mol → Option Value))
    (ab : Bool) (mol : Mol) (ks : List String) (kv : Option String)
    (res : List (String × Option Value))
    (hreg : ∀ d ∈ ks, (properties.find? (fun p => p.1 == d)).isSome)
    (hcap : ∀ d ∈ ks, (getDesc d).isSome) :
    ∃ r, calcGo getDesc ab mol ks kv res = .ok r ∧
      r.map Prod.fst =
        (ks.map (resolveName ab)).foldl insKey (res.map Prod.fst) := by
  induction ks generalizing kv res with
  | nil => exact ⟨res, rfl, rfl⟩
  | cons d ds ih =>
    rcases Option.isSome_iff_exists.1
      (hreg d (List.mem_cons_self d ds)) with ⟨entry, hfind⟩
    rcases Option.isSome_iff_exists.1
      (hcap d (List.mem_cons_self d ds)) with ⟨f, hf⟩
    have hreg' : ∀ d' ∈ ds,
        (properties.find? (fun p => p.1 == d')).isSome :=
      fun d' hd' => hreg d' (List.mem_cons_of_mem d hd')
    have hcap' : ∀ d' ∈ ds, (getDesc d').isSome :=
      fun d' hd' => hcap d' (List.mem_cons_of_mem d hd')
    have hname : resolveName ab d = if ab then entry.2.ab else entry.2.full := by
      simp [resolveName, hfind]
    cases hfm : f mol with
    | some v =>
      rcases ih (some (if ab then entry.2.ab else entry.2.full))
        (dictInsert res (if ab then entry.2.ab else entry.2.full) (some v))
        hreg' hcap' with ⟨r, hr, hkeys⟩
      refine ⟨r, ?_, ?_⟩
      · simp only [calcGo, hfind, hf, hfm]
        exact hr
      · rw [hkeys, List.map_cons, List.foldl_cons, hname, dictInsert_keys]
    | none =>
      rcases ih (some (if ab then entry.2.ab else entry.2.full))
        (dictInsert res (if ab then entry.2.ab else entry.2.full) none)
        hreg' hcap' with ⟨r, hr, hkeys⟩
      refine ⟨r, ?_, ?_⟩
      · simp only [calcGo, hfind, hf, hfm]
        exact hr
      · rw [hkeys, List.map_cons, List.foldl_cons, hname, dictInsert_keys]

/-- Folding fresh, pairwise-distinct keys into a dict appends them. -/
theorem foldl_insKey_of_fresh (names acc : List String)
    (hnd : names.Nodup) (hfresh : ∀ n ∈ names, n ∉ acc) :
    names.foldl insKey acc = acc ++ names := by
  induction names generalizing acc with
  | nil => simp
  | cons n ns ih =>
    have hn : n ∉ acc := hfresh n (List.mem_cons_self n ns)
    have step : insKey acc n = acc ++ [n] := by simp [insKey, hn]
    have hfresh' : ∀ m ∈ ns, m ∉ acc ++ [n] := by
      intro m hm
      rw [List.mem_append]
      rintro (hmacc | hmn)
      · exact hfresh m (List.mem_cons_of_mem n hm) hmacc
      · rw [List.mem_singleton] at hmn
        exact (List.nodup_cons.1 hnd).1 (hmn ▸ hm)
    rw [List.foldl_cons, step,
      ih (acc ++ [n]) (List.Nodup.of_cons hnd) hfresh']
    simp

theorem mem_insKey {x k : String} {acc : List String} :
    x ∈ insKey acc k ↔ x ∈ acc ∨ x = k := by
  unfold insKey
  by_cases h : k ∈ acc
  · simp only [if_pos h]
    constructor
    · exact Or.inl
    · rintro (hx | rfl)
      · exact hx
      · exact h
  · simp [if_neg h]

theorem nodup_insKey {k : String} {acc : List String} (h : acc.Nodup) :
    (insKey acc k).Nodup := by
  unfold insKey
  by_cases hk : k ∈ acc
  · simpa [if_pos hk] using h
  · rw [if_neg hk]
    simpa [List.nodup_append] using ⟨h, hk⟩

theorem foldl_insKey_nodup (names : List String) {acc : List String}
    (h : acc.Nodup) : (names.foldl insKey acc).Nodup := by
  induction names generalizing acc with
  | nil => exact h
  | cons n ns ih => exact ih (nodup_insKey h)

theorem foldl_insKey_mem (names : List String) (acc : List String)
    (x : String) :
    x ∈ names.foldl insKey acc ↔ x ∈ acc ∨ x ∈ names := by
  induction names generalizing acc with
  | nil => simp
  | cons n ns ih =>
    rw [List.foldl_cons, ih, mem_insKey]
    constructor
    · rintro ((hx | rfl) | hx)
      · exact Or.inl hx
      · exact Or.inr (List.mem_cons_self _ _)
      · exact Or.inr (List.mem_cons_of_mem _ hx)
    · rintro (hx | hx)
      · exact Or.inl (Or.inl hx)
      · rcases List.mem_cons.1 hx with rfl | hx
        · exact Or.inl (Or.inr rfl)
        · exact Or.inr hx

theorem foldl_insKey_sublist (names : List String) (acc : List String) :
    List.Sublist (names.foldl insKey acc) (acc ++ names) := by
  induction names generalizing acc with
  | nil => simp
  | cons n ns ih =>
    rw [List.foldl_cons]
    refine (ih (insKey acc n)).trans ?_
    unfold insKey
    by_cases hk : n ∈ acc
    · rw [if_pos hk]
      exact List.Sublist.append_left (List.sublist_cons_self n ns) acc
    · rw [if_neg hk, List.append_assoc]
      simp

/-- Display-name resolution is injective on registry keys, for both
naming conventions (all full names are distinct, all abbreviated names
are distinct). -/
theorem resolveName_inj : ∀ ab : Bool, ∀ a ∈ registryKeys,
    ∀ b ∈ registryKeys, resolveName ab a = resolveName ab b → a = b := by
  decide

/-- The only exception `to_dataframe` can raise is the `TypeError` from
unpacking a `None` properties mapping. -/
theorem toDataframeGo_error {ms : MolSet} {data : Table} {e : CalcError}
    (h : toDataframeGo ms data = .error e) : e = .typeError := by
  induction ms generalizing data with
  | nil => simp [toDataframeGo] at h
  | cons m rest ih =>
    cases hp : m.properties with
    | none =>
      simp only [toDataframeGo, hp] at h
      exact (Except.error.injEq _ _ ▸ h).symm
    | some ps =>
      simp only [toDataframeGo, hp] at h
      exact ih h

/-- When every molecule holds a non-null property mapping, the export
comprehension succeeds; its keys are the dict-fold of the record names
and every row comes from a record (later duplicates overwrite). -/
theorem toDataframeGo_ok (ms : MolSet) (data : Table)
    (hprops : ∀ m ∈ ms, m.properties.isSome) :
    ∃ t, toDataframeGo ms data = .ok t ∧
      t.map Prod.fst =
        (ms.map Molecule.name).foldl insKey (data.map Prod.fst) ∧
      ∀ p ∈ t, p ∈ data ∨ ∃ m ∈ ms, ∃ ps, m.properties = some ps ∧
        p = (m.name, rowOf ps m.smiles) := by
  induction ms generalizing data with
  | nil => exact ⟨data, rfl, by simp, fun p hp => Or.inl hp⟩
  | cons m rest ih =>
    rcases Option.isSome_iff_exists.1
      (hprops m (List.mem_cons_self m rest)) with ⟨ps, hps⟩
    have hprops' : ∀ m' ∈ rest, m'.properties.isSome :=
      fun m' hm' => hprops m' (List.mem_cons_of_mem m hm')
    rcases ih (dictInsert data m.name (rowOf ps m.smiles)) hprops' with
      ⟨t, ht, hkeys, hmem⟩
    refine ⟨t, ?_, ?_, ?_⟩
    · simp only [toDataframeGo, hps]
      exact ht
    · rw [hkeys, dictInsert_keys]
      simp
    · intro p hp
      rcases hmem p hp with hpd | ⟨m', hm', hps', hpe⟩
      · rcases dictInsert_mem hpd with rfl | hpd'
        · exact Or.inr ⟨m, List.mem_cons_self m rest, ps, hps, rfl⟩
        · exact Or.inl hpd'
      · exact Or.inr ⟨m', List.mem_cons_of_mem m hm', hps', hpe⟩

/-- On a successful run, the keys of the result mapping are the fold of
dict insertions of the entry names, in iteration order. -/
theorem processEntries_ok_keys (parse : String → Option Mol)
    (strRep : Mol → String)
    (getDesc : String → Option (Mol → Option Value)) (ab : Bool)
    (props : Option (List String)) (entries : List (Entry Mol))
    (res : Results) (mset : MolSet) {res' : Results}
    (h : (processEntries parse strRep getDesc ab props entries res
      mset).1 = .ok res') :
    res'.map Prod.fst =
      (entryNames strRep entries).foldl insKey (res.map Prod.fst) := by
  induction entries generalizing res mset with
  | nil =>
    simp only [processEntries] at h
    have : res = res' := by simpa using h
    subst this
    simp [entryNames]
  | cons e rest ih =>
    cases e with
    | named n s =>
      cases hp : parse s with
      | none =>
        simp only [processEntries, processEntry, hp] at h
        rw [ih _ _ h, dictInsert_keys]
        simp [entryNames]
      | some m =>
        cases hc : calcForMolecule getDesc ab props m with
        | error e' =>
          simp only [processEntries, processEntry, hp, hc] at h
          exact absurd h (by simp)
        | ok p =>
          simp only [processEntries, processEntry, hp, hc] at h
          rw [ih _ _ h, dictInsert_keys]
          simp [entryNames]
    | obj m =>
      cases hc : calcForMolecule getDesc ab props m with
      | error e' =>
        simp only [processEntries, processEntry, hc] at h
        exact absurd h (by simp)
      | ok p =>
        simp only [processEntries, processEntry, hc] at h
        rw [ih _ _ h, dictInsert_keys]
        simp [entryNames]

/-- On a successful run, the molecule set after the call is the one
before the call extended with exactly one record per successfully
evaluated entry (parse failures contribute nothing). -/
theorem processEntries_ok_mset (parse : String → Option Mol)
    (strRep : Mol → String)
    (getDesc : String → Option (Mol → Option Value)) (ab : Bool)
    (props : Option (List String)) (entries : List (Entry Mol))
    (res : Results) (mset : MolSet) {res' : Results}
    (h : (processEntries parse strRep getDesc ab props entries res
      mset).1 = .ok res') :
    (processEntries parse strRep getDesc ab props entries res mset).2 =
      mset ++ entries.filterMap
        (newRecord parse strRep getDesc ab props) := by
  induction entries generalizing res mset with
  | nil => simp [processEntries]
  | cons e rest ih =>
    cases e with
    | named n s =>
      cases hp : parse s with
      | none =>
        simp only [processEntries, processEntry, hp] at h ⊢
        rw [ih _ _ h]
        simp [newRecord, hp]
      | some m =>
        cases hc : calcForMolecule getDesc ab props m with
        | error e' =>
          simp only [processEntries, processEntry, hp, hc] at h
          exact absurd h (by simp)
        | ok p =>
          simp only [processEntries, processEntry, hp, hc] at h ⊢
          rw [ih _ _ h]
          simp [newRecord, hp, hc, Except.toOption]
    | obj m =>
      cases hc : calcForMolecule getDesc ab props m with
      | error e' =>
        simp only [processEntries, processEntry, hc] at h
        exact absurd h (by simp)
      | ok p =>
        simp only [processEntries, processEntry, hc] at h ⊢
        rw [ih _ _ h]
        simp [newRecord, hc, Except.toOption]

/-- Full display names identify registry entries. -/
theorem full_name_inj : ∀ e ∈ properties, ∀ e' ∈ properties,
    e.2.full = e'.2.full → e = e' := by
  decide

/-- Abbreviated display names identify registry entries. -/
theorem ab_name_inj : ∀ e ∈ properties, ∀ e' ∈ properties,
    e.2.ab = e'.2.ab → e = e' := by
  decide

/-- Matching a full name against a full name agrees with matching the
corresponding abbreviated names. -/
theorem paired_beq {e e' : String × PropNames} (he : e ∈ properties)
    (he' : e' ∈ properties) :
    (e'.2.full == e.2.full) = (e'.2.ab == e.2.ab) := by
  by_cases h : e' = e
  · subst h
    simp
  · have h1 : e'.2.full ≠ e.2.full := fun hf => h (full_name_inj e' he' e he hf)
    have h2 : e'.2.ab ≠ e.2.ab := fun hf => h (ab_name_inj e' he' e he hf)
    simp [h1, h2]

theorem pairedProps_any {rf ra : List (String × Option Value)}
    (h : pairedProps rf ra) {e : String × PropNames}
    (he : e ∈ properties) :
    rf.any (fun p => p.1 == e.2.full) =
      ra.any (fun p => p.1 == e.2.ab) := by
  induction h with
  | nil => rfl
  | @cons qf qa lf la hpq hrest ih =>
    rcases hpq.2 with ⟨e', he', hqf, hqa⟩
    simp only [List.any_cons, hqf, hqa, paired_beq he he', ih]

theorem pairedProps_map {rf ra : List (String × Option Value)}
    (h : pairedProps rf ra) {e : String × PropNames}
    (he : e ∈ properties) (v : Option Value) :
    pairedProps
      (rf.map (fun p => if p.1 == e.2.full then (e.2.full, v) else p))
      (ra.map (fun p => if p.1 == e.2.ab then (e.2.ab, v) else p)) := by
  induction h with
  | nil => exact List.Forall₂.nil
  | @cons qf qa lf la hpq hrest ih =>
    rcases hpq with ⟨hval, e', he', hqf, hqa⟩
    simp only [List.map_cons]
    refine List.Forall₂.cons ?_ ih
    have hbeq : (qf.1 == e.2.full) = (qa.1 == e.2.ab) := by
      rw [hqf, hqa]
      exact paired_beq he he'
    by_cases hb : (qf.1 == e.2.full) = true
    · have hb' : (qa.1 == e.2.ab) = true := hbeq ▸ hb
      simp only [if_pos hb, if_pos hb']
      exact ⟨trivial, e, he, rfl, rfl⟩
    · have hb' : ¬(qa.1 == e.2.ab) = true := hbeq ▸ hb
      simp only [if_neg hb, if_neg hb']
      exact ⟨hval, e', he', hqf, hqa⟩

/-- Writing the same value under the two display names of one registry
entry preserves the pairing of two property mappings. -/
theorem pairedProps_dictInsert {rf ra : List (String × Option Value)}
    (h : pairedProps rf ra) {e : String × PropNames}
    (he : e ∈ properties) (v : Option Value) :
    pairedProps (dictInsert rf e.2.full v) (dictInsert ra e.2.ab v) := by
  unfold dictInsert
  rw [pairedProps_any h he]
  by_cases hc : ra.any (fun p => p.1 == e.2.ab) = true
  · rw [if_pos hc, if_pos hc]
    exact pairedProps_map h he v
  · rw [if_neg hc, if_neg hc]
    exact List.rel_append h
      (List.Forall₂.cons ⟨rfl, e, he, rfl, rfl⟩ List.Forall₂.nil)

/-- The two naming conventions drive the descriptor loop through the
same control flow: same exceptions, or property mappings with identical
values keyed by the paired display names. -/
theorem calcGo_abbrev (getDesc : String → Option (Mol → Option Value))
    (mol : Mol) (ks : List String) {kvF kvA : Option String}
    {resF resA : List (String × Option Value)}
    (hkv : pairedKey kvF kvA) (hres : pairedProps resF resA) :
    pairedCalc (calcGo getDesc false mol ks kvF resF)
      (calcGo getDesc true mol ks kvA resA) := by
  induction ks generalizing kvF kvA resF resA with
  | nil => simpa [calcGo, pairedCalc] using hres
  | cons d ds ih =>
    cases hfind : properties.find? (fun p => p.1 == d) with
    | none => simp [calcGo, hfind, pairedCalc]
    | some entry =>
      have he : entry ∈ properties := List.mem_of_find?_eq_some hfind
      cases hdesc : getDesc d with
      | some f =>
        cases hfm : f mol with
        | some v =>
          simp only [calcGo, hfind, hdesc, hfm, Bool.false_eq_true,
            if_false, if_true]
          exact ih ⟨entry, he, rfl, rfl⟩
            (pairedProps_dictInsert hres he (some v))
        | none =>
          simp only [calcGo, hfind, hdesc, hfm, Bool.false_eq_true,
            if_false, if_true]
          exact ih ⟨entry, he, rfl, rfl⟩
            (pairedProps_dictInsert hres he none)
      | none =>
        cases kvF with
        | none =>
          cases kvA with
          | none => simp [calcGo, hfind, hdesc, pairedCalc]
          | some ka => exact absurd hkv (by simp [pairedKey])
        | some kf =>
          cases kvA with
          | none => exact absurd hkv (by simp [pairedKey])
          | some ka =>
            rcases hkv with ⟨e, he', hkf, hka⟩
            subst hkf
            subst hka
            simp only [calcGo, hfind, hdesc]
            exact ih ⟨e, he', rfl, rfl⟩
              (pairedProps_dictInsert hres he' none)

theorem calcForMolecule_abbrev
    (getDesc : String → Option (Mol → Option Value))
    (props : Option (List String)) (mol : Mol) :
    pairedCalc (calcForMolecule getDesc false props mol)
      (calcForMolecule getDesc true props mol) :=
  calcGo_abbrev getDesc mol (effectiveKeys props) (by simp [pairedKey])
    List.Forall₂.nil

theorem pairedResults_any {rf ra : Results} (h : pairedResults rf ra)
    (n : String) :
    rf.any (fun p => p.1 == n) = ra.any (fun p => p.1 == n) := by
  induction h with
  | nil => rfl
  | @cons pf pa lf la hpq hrest ih =>
    simp only [List.any_cons, hpq.1, ih]

/-- Writing paired result entries under the same name preserves the
pairing of two result mappings. -/
theorem pairedResults_dictInsert {rf ra : Results}
    (h : pairedResults rf ra) (n : String) {vf va : ResultEntry}
    (hv : pairedEntry vf va) :
    pairedResults (dictInsert rf n vf) (dictInsert ra n va) := by
  unfold dictInsert
  rw [pairedResults_any h n]
  by_cases hc : ra.any (fun p => p.1 == n) = true
  · rw [if_pos hc, if_pos hc]
    clear hc
    induction h with
    | nil => exact List.Forall₂.nil
    | @cons pf pa lf la hpq hrest ih =>
      simp only [List.map_cons]
      refine List.Forall₂.cons ?_ ih
      by_cases hb : (pf.1 == n) = true
      · have hb' : (pa.1 == n) = true := hpq.1 ▸ hb
        simp only [if_pos hb, if_pos hb']
        exact ⟨trivial, hv⟩
      · have hb' : ¬(pa.1 == n) = true := hpq.1 ▸ hb
        simp only [if_neg hb, if_neg hb']
        exact hpq
  · rw [if_neg hc, if_neg hc]
    exact List.rel_append h
      (List.Forall₂.cons ⟨rfl, hv⟩ List.Forall₂.nil)

/-- The main loop preserves the full/abbreviated pairing of result
mappings and molecule sets. -/
theorem processEntries_abbrev (parse : String → Option Mol)
    (strRep : Mol → String)
    (getDesc : String → Option (Mol → Option Value))
    (props : Option (List String)) (entries : List (Entry Mol))
    {resF resA : Results} {msF msA : MolSet}
    (hres : pairedResults resF resA) (hms : pairedMolSet msF msA) :
    pairedLoop
      (processEntries parse strRep getDesc false props entries resF msF)
      (processEntries parse strRep getDesc true props entries resA msA) := by
  induction entries generalizing resF resA msF msA with
  | nil => exact ⟨hres, hms⟩
  | cons e rest ih =>
    cases e with
    | named n s =>
      cases hp : parse s with
      | none =>
        simp only [processEntries, processEntry, hp]
        exact ih (pairedResults_dictInsert hres n ⟨rfl, trivial⟩) hms
      | some m =>
        have hcalc := calcForMolecule_abbrev getDesc props m
        cases hF : calcForMolecule getDesc false props m with
        | ok pf =>
          cases hA : calcForMolecule getDesc true props m with
          | ok pa =>
            have hpp : pairedProps pf pa := by
              rw [hF, hA] at hcalc
              exact hcalc
            simp only [processEntries, processEntry, hp, hF, hA]
            exact ih (pairedResults_dictInsert hres n ⟨rfl, hpp⟩)
              (List.rel_append hms
                (List.Forall₂.cons ⟨rfl, rfl, hpp⟩ List.Forall₂.nil))
          | error ea =>
            rw [hF, hA] at hcalc
            exact absurd hcalc (by simp [pairedCalc])
        | error ef =>
          cases hA : calcForMolecule getDesc true props m with
          | ok pa =>
            rw [hF, hA] at hcalc
            exact absurd hcalc (by simp [pairedCalc])
          | error ea =>
            have heq : ef = ea := by
              rw [hF, hA] at hcalc
              exact hcalc
            subst heq
            simp only [processEntries, processEntry, hp, hF, hA]
            exact ⟨rfl, hms⟩
    | obj m =>
      have hcalc := calcForMolecule_abbrev getDesc props m
      cases hF : calcForMolecule getDesc false props m with
      | ok pf =>
        cases hA : calcForMolecule getDesc true props m with
        | ok pa =>
          have hpp : pairedProps pf pa := by
            rw [hF, hA] at hcalc
            exact hcalc
          simp only [processEntries, processEntry, hF, hA]
          exact ih (pairedResults_dictInsert hres (strRep m) ⟨rfl, hpp⟩)
            (List.rel_append hms
              (List.Forall₂.cons ⟨rfl, rfl, hpp⟩ List.Forall₂.nil))
        | error ea =>
          rw [hF, hA] at hcalc
          exact absurd hcalc (by simp [pairedCalc])
      | error ef =>
        cases hA : calcForMolecule getDesc true props m with
        | ok pa =>
          rw [hF, hA] at hcalc
          exact absurd hcalc (by simp [pairedCalc])
        | error ea =>
          have heq : ef = ea := by
            rw [hF, hA] at hcalc
            exact hcalc
          subst heq
          simp only [processEntries, processEntry, hF, hA]
          exact ⟨rfl, hms⟩

end Lemmas

/-! ### Claims -/

/-- C3: an input entry whose raw identifier fails parsing is recorded
under its name with the raw identifier and `properties = None`, the
descriptor evaluator is never invoked for it (the recorded entry and the
untouched molecule set are fixed data, independent of the capability
surface), and processing continues with the remaining entries without
raising. -/
theorem parse_failure_recorded_null {Mol : Type}
    (parse : String → Option Mol) (strRep : Mol → String)
    (getDesc : String → Option (Mol → Option Value)) (ab : Bool)
    (props : Option (List String)) (pre post : List (Entry Mol))
    (n s : String) (res : Results) (mset : MolSet)
    (h : parse s = none) :
    processEntries parse strRep getDesc ab props
        (pre ++ Entry.named n s :: post) res mset =
      match processEntries parse strRep getDesc ab props pre res mset with
      | (Except.ok res', mset') =>
        processEntries parse strRep getDesc ab props post
          (dictInsert res' n ⟨some s, none⟩) mset'
      | (Except.error e, mset') => (Except.error e, mset') := by
  rw [processEntries_append]
  cases hpre : processEntries parse strRep getDesc ab props pre res mset with
  | mk r1 mset' =>
    cases r1 with
    | error e => rfl
    | ok res' =>
      simp only [processEntries, processEntry, h]

theorem parse_failure_recorded_null_witness :
    exParse "bad" = none ∧
    processEntries exParse exStr exDescAll true (some ["MolWt"])
        ([Entry.named "a" "CCO"] ++ Entry.named "b" "bad" ::
          [Entry.obj 5]) [] [] =
      match processEntries exParse exStr exDescAll true (some ["MolWt"])
          [Entry.named "a" "CCO"] [] [] with
      | (Except.ok res', mset') =>
        processEntries exParse exStr exDescAll true (some ["MolWt"])
          [Entry.obj 5] (dictInsert res' "b" ⟨some "bad", none⟩) mset'
      | (Except.error e, mset') => (Except.error e, mset') :=
  ⟨by decide, parse_failure_recorded_null exParse exStr exDescAll true
    (some ["MolWt"]) [Entry.named "a" "CCO"] [Entry.obj 5] "b" "bad" [] []
    (by decide)⟩

/-- C5: a `calculate` call that raises the unknown-property `KeyError`
leaves the accumulated molecule set unchanged, so a failed call followed
by any later call gives the same outcome as that later call run on the
state from before the failed call. -/
theorem failed_call_leaves_state_unchanged {Mol : Type}
    (parse : String → Option Mol) (strRep : Mol → String)
    (getDesc : String → Option (Mol → Option Value)) (ab asDf : Bool)
    (input : InputData Mol) (props : Option (List String)) (mset : MolSet)
    {k : String}
    (h : (calculate parse strRep getDesc ab asDf input props mset).1 =
      .error (.keyError k)) :
    (calculate parse strRep getDesc ab asDf input props mset).2 = mset ∧
    ∀ (asDf' : Bool) (input' : InputData Mol)
      (props' : Option (List String)),
      calculate parse strRep getDesc ab asDf' input' props'
          ((calculate parse strRep getDesc ab asDf input props mset).2) =
        calculate parse strRep getDesc ab asDf' input' props' mset := by
  have h2 : (calculate parse strRep getDesc ab asDf input props mset).2 =
      mset := by
    cases hr : (processEntries parse strRep getDesc ab props
        (entriesOf input) [] mset).1 with
    | error e =>
      have hm := processEntries_error_mset parse strRep getDesc ab props
        (entriesOf input) [] mset hr
      simpa only [calculate, hr] using hm
    | ok res =>
      exfalso
      cases asDf with
      | false =>
        simp only [calculate, hr, Bool.false_eq_true, if_false] at h
        exact Except.noConfusion h
      | true =>
        cases ht : toDataframe (processEntries parse strRep getDesc ab
            props (entriesOf input) [] mset).2 with
        | ok t =>
          simp only [calculate, hr, if_true, ht] at h
          exact Except.noConfusion h
        | error e =>
          simp only [calculate, hr, if_true, ht] at h
          have := toDataframeGo_error
            (ht.trans (congrArg Except.error (Except.error.injEq _ _ ▸ h)))
          exact CalcError.noConfusion this
  exact ⟨h2, fun asDf' input' props' => by rw [h2]⟩

theorem failed_call_leaves_state_unchanged_witness :
    (calculate exParse exStr exDescAll true false
        (InputData.dict [("a", "CCO")]) (some ["Nope"]) []).1 =
      .error (.keyError "Nope") ∧
    ((calculate exParse exStr exDescAll true false
        (InputData.dict [("a", "CCO")]) (some ["Nope"]) []).2 = [] ∧
    ∀ (asDf' : Bool) (input' : InputData Nat)
      (props' : Option (List String)),
      calculate exParse exStr exDescAll true asDf' input' props'
          ((calculate exParse exStr exDescAll true false
            (InputData.dict [("a", "CCO")]) (some ["Nope"]) []).2) =
        calculate exParse exStr exDescAll true asDf' input' props' []) :=
  ⟨by decide, @failed_call_leaves_state_unchanged Nat exParse exStr
    exDescAll true false (InputData.dict [("a", "CCO")]) (some ["Nope"])
    [] "Nope" (by decide)⟩

/-- C1 counterexample: with a requested key absent from the registry,
`calculate` does not raise when no input item reaches descriptor
evaluation — an empty input, and an input whose only identifier fails to
parse, both return normally. -/
theorem unknown_key_not_raised_counterexample :
    calculate exParse exStr exDescAll true false (InputData.dict [])
        (some ["NoSuchKey"]) [] = (.ok (.map []), []) ∧
    calculate exParse exStr exDescAll true false
        (InputData.dict [("bad", "bad")]) (some ["NoSuchKey"]) [] =
      (.ok (.map [("bad", ⟨some "bad", none⟩)]), []) := by
  decide

/-- C1 (amended): when the requested keys contain a key absent from the
registry, every known requested key's capability is present, and at
least one input item reaches descriptor evaluation (it parses, or is an
already-parsed object), `calculate` raises `KeyError` naming the first
unknown requested key, returns no result mapping, and leaves the
accumulated molecule set unchanged: no partial results. -/
theorem unknown_key_aborts {Mol : Type} (parse : String → Option Mol)
    (strRep : Mol → String)
    (getDesc : String → Option (Mol → Option Value)) (ab asDf : Bool)
    (input : InputData Mol) (reqs : List String) (mset : MolSet)
    {k : String} (h1 : firstUnknown reqs = some k)
    (h2 : ∀ d ∈ reqs, (properties.find? (fun p => p.1 == d)).isSome →
      (getDesc d).isSome)
    (h3 : ∃ e ∈ entriesOf input, reaches parse e = true) :
    (calculate parse strRep getDesc ab asDf input (some reqs) mset).1 =
      .error (.keyError k) ∧
    (calculate parse strRep getDesc ab asDf input (some reqs) mset).2 =
      mset := by
  have heff : effectiveKeys (some reqs) = reqs := by
    cases reqs with
    | nil => simp [firstUnknown] at h1
    | cons r rs => rfl
  have hc : ∀ m : Mol, calcForMolecule getDesc ab (some reqs) m =
      .error (.keyError k) := by
    intro m
    unfold calcForMolecule
    rw [heff]
    exact calcGo_keyError getDesc ab m reqs none [] h1 h2
  have hpair := processEntries_raises parse strRep getDesc ab (some reqs)
    hc (entriesOf input) [] mset h3
  constructor
  · simp only [calculate, hpair]
  · simp only [calculate, hpair]

theorem unknown_key_aborts_witness :
    firstUnknown ["MolWt", "NoSuchKey"] = some "NoSuchKey" ∧
    (∀ d ∈ ["MolWt", "NoSuchKey"],
      (properties.find? (fun p => p.1 == d)).isSome →
        (exDescAll d).isSome) ∧
    (∃ e ∈ entriesOf (InputData.dict [("a", "CCO")]),
      reaches exParse e = true) ∧
    ((calculate exParse exStr exDescAll true false
        (InputData.dict [("a", "CCO")]) (some ["MolWt", "NoSuchKey"])
        []).1 = .error (.keyError "NoSuchKey") ∧
    (calculate exParse exStr exDescAll true false
        (InputData.dict [("a", "CCO")]) (some ["MolWt", "NoSuchKey"])
        []).2 = []) :=
  ⟨by decide, by decide, by decide,
    @unknown_key_aborts Nat exParse exStr exDescAll true false
      (InputData.dict [("a", "CCO")]) ["MolWt", "NoSuchKey"] []
      "NoSuchKey" (by decide) (by decide) (by decide)⟩

/-- C10: the display-name variable of the per-property loop is assigned
only on the branch where the descriptor capability is found.  If the
very first requested key has no capability the evaluation raises the
unhandled name-resolution error; if a later key has no capability, the
null is written under the display name bound in a previous iteration,
overwriting that property's value. -/
theorem stale_key_variable {Mol : Type}
    (getDesc : String → Option (Mol → Option Value)) (ab : Bool)
    (mol : Mol) {k₁ k₂ : String} {e₁ e₂ : String × PropNames}
    {f : Mol → Option Value}
    (hk₁ : properties.find? (fun p => p.1 == k₁) = some e₁)
    (hk₂ : properties.find? (fun p => p.1 == k₂) = some e₂)
    (hf : getDesc k₁ = some f) (hn : getDesc k₂ = none) :
    calcForMolecule getDesc ab (some [k₂]) mol = .error .nameError ∧
    calcForMolecule getDesc ab (some [k₁, k₂]) mol =
      .ok [(if ab then e₁.2.ab else e₁.2.full, none)] := by
  constructor
  · simp only [calcForMolecule, effectiveKeys, calcGo, hk₂, hn]
  · cases hfm : f mol with
    | some v =>
      simp only [calcForMolecule, effectiveKeys, calcGo, hk₁, hf, hfm,
        dictInsert, List.any_nil, List.nil_append, hk₂, hn,
        dictInsert_singleton_self]
      simp [calcGo]
    | none =>
      simp only [calcForMolecule, effectiveKeys, calcGo, hk₁, hf, hfm,
        dictInsert, List.any_nil, List.nil_append, hk₂, hn,
        dictInsert_singleton_self]
      simp [calcGo]

theorem stale_key_variable_witness :
    properties.find? (fun p => p.1 == "MolWt") =
      some ("MolWt", ⟨"Molecular Weight", "MW"⟩) ∧
    properties.find? (fun p => p.1 == "LabuteASA") =
      some ("LabuteASA", ⟨"Labute ASA", "ASA"⟩) ∧
    exDescNoASA "MolWt" = some (fun (n : Nat) => some (n : Int)) ∧
    exDescNoASA "LabuteASA" = none ∧
    (calcForMolecule exDescNoASA true (some ["LabuteASA"]) (3 : Nat) =
      .error .nameError ∧
    calcForMolecule exDescNoASA true (some ["MolWt", "LabuteASA"])
        (3 : Nat) =
      .ok [(if true then "MW" else "Molecular Weight", none)]) :=
  ⟨by decide, by decide, rfl, rfl,
    @stale_key_variable Nat exDescNoASA true 3 "MolWt" "LabuteASA"
      ("MolWt", ⟨"Molecular Weight", "MW"⟩)
      ("LabuteASA", ⟨"Labute ASA", "ASA"⟩)
      (fun (n : Nat) => some (n : Int)) (by decide) (by decide) rfl rfl⟩

/-- C2 (code bug): when the descriptor capability for a requested key is
absent, the source intends to record a null for that key and continue
(per-property fault isolation), but `key` is only assigned on the branch
where the capability is found.  At the failing input — a parsed molecule
with `LabuteASA` requested first and its capability absent — the code
raises an unhandled `UnboundLocalError` instead of recording a null;
with a preceding key, the null lands on the previous key's display name
rather than on `"ASA"`. -/
theorem capability_absent_not_isolated :
    calcForMolecule exDescNoASA true (some ["LabuteASA"]) (3 : Nat) =
      .error .nameError ∧
    calcForMolecule exDescNoASA true (some ["MolWt", "LabuteASA"])
      (3 : Nat) = .ok [("MW", none)] ∧
    resolveName true "LabuteASA" = "ASA" := by
  decide

/-- C4 counterexample: the empty requested-keys list does not produce
the empty property mapping — Python truthiness routes `[]` (like `None`)
to all ten registry keys. -/
theorem empty_subset_counterexample :
    calcForMolecule exDescAll true (some ([] : List String)) (3 : Nat) =
      .ok [("MW", some 3), ("LogP", some 3), ("HBD", some 3),
        ("HBA", some 3), ("RB", some 3), ("AR", some 3),
        ("TPSA", some 3), ("HAC", some 3), ("FSP3", some 3),
        ("ASA", some 3)] := by
  decide

/-- C4 (amended): for a successfully parsed structure, a nonempty,
duplicate-free requested-keys list contained in the registry (or the
null/omitted/empty case, which all select every registry key) yields,
when every requested key's capability is present, a property mapping
whose key list is exactly the resolved display names of the effective
keys — no extra and no missing keys. -/
theorem requested_subset_keys_exact {Mol : Type}
    (getDesc : String → Option (Mol → Option Value)) (ab : Bool)
    (props : Option (List String)) (reqs : List String) (mol : Mol)
    (heff : effectiveKeys props = reqs) (hnd : reqs.Nodup)
    (hreg : ∀ d ∈ reqs, (properties.find? (fun p => p.1 == d)).isSome)
    (hcap : ∀ d ∈ reqs, (getDesc d).isSome) :
    ∃ r, calcForMolecule getDesc ab props mol = .ok r ∧
      r.map Prod.fst = reqs.map (resolveName ab) := by
  rcases calcGo_ok_keys getDesc ab mol reqs none [] hreg hcap with
    ⟨r, hr, hkeys⟩
  refine ⟨r, ?_, ?_⟩
  · rw [calcForMolecule, heff]
    exact hr
  · rw [hkeys, List.map_nil]
    have hnd' : (reqs.map (resolveName ab)).Nodup := by
      refine List.Nodup.map_on ?_ hnd
      intro a ha b hb hab
      exact resolveName_inj ab a (mem_registryKeys_of_find (hreg a ha)) b
        (mem_registryKeys_of_find (hreg b hb)) hab
    rw [foldl_insKey_of_fresh _ [] hnd' (by simp)]
    simp

theorem requested_subset_keys_exact_witness :
    effectiveKeys (some ["TPSA", "MolWt"]) = ["TPSA", "MolWt"] ∧
    (["TPSA", "MolWt"] : List String).Nodup ∧
    (∀ d ∈ ["TPSA", "MolWt"],
      (properties.find? (fun p => p.1 == d)).isSome) ∧
    (∀ d ∈ ["TPSA", "MolWt"], (exDescAll d).isSome) ∧
    (∃ r, calcForMolecule exDescAll false (some ["TPSA", "MolWt"])
        (3 : Nat) = .ok r ∧
      r.map Prod.fst = ["TPSA", "MolWt"].map (resolveName false)) :=
  ⟨by decide, by decide, by decide, by decide,
    requested_subset_keys_exact exDescAll false (some ["TPSA", "MolWt"])
      ["TPSA", "MolWt"] 3 (by decide) (by decide) (by decide)
      (by decide)⟩

/-- C6 counterexample: an unsuccessfully parsed input item gets an entry
in the returned mapping but no Structure Record (the molecule set stays
empty), and the mapping returned by a later call does not contain the
entries of earlier calls (it is per-call, not accumulated). -/
theorem records_per_call_counterexample :
    calculate exParse exStr exDescAll true false
        (InputData.dict [("bad", "bad")]) (some ["MolWt"]) [] =
      (.ok (.map [("bad", ⟨some "bad", none⟩)]), []) ∧
    (calculate exParse exStr exDescAll true false
        (InputData.dict [("b", "CC")]) (some ["MolWt"])
        [⟨"a", some "CCO", some [("MW", some 3)]⟩]).1 =
      .ok (.map [("b", ⟨some "CC", some [("MW", some 2)]⟩)]) := by
  decide

/-- C6 (amended): with `as_table` false, a successful `calculate` call
returns the mapping from name to `{identifier, properties}` built during
that call, and appends to the molecule set held by the instance exactly
one Structure Record per successfully evaluated input item of the call
(parse failures contribute an entry in the returned mapping but no
record); the records accumulate onto the set from previous calls. -/
theorem map_return_and_record_accumulation {Mol : Type}
    (parse : String → Option Mol) (strRep : Mol → String)
    (getDesc : String → Option (Mol → Option Value)) (ab : Bool)
    (input : InputData Mol) (props : Option (List String))
    (mset : MolSet) {out : Output}
    (h : (calculate parse strRep getDesc ab false input props mset).1 =
      .ok out) :
    (∃ res, out = .map res ∧
      (processEntries parse strRep getDesc ab props (entriesOf input) []
        mset).1 = .ok res) ∧
    (calculate parse strRep getDesc ab false input props mset).2 =
      mset ++ (entriesOf input).filterMap
        (newRecord parse strRep getDesc ab props) := by
  cases hr : (processEntries parse strRep getDesc ab props
      (entriesOf input) [] mset).1 with
  | error e =>
    simp only [calculate, hr] at h
    exact absurd h (by simp)
  | ok res =>
    have h1 : out = .map res := by
      simp only [calculate, hr, Bool.false_eq_true, if_false] at h
      simpa using h.symm
    refine ⟨⟨res, h1, rfl⟩, ?_⟩
    have h2 := processEntries_ok_mset parse strRep getDesc ab props
      (entriesOf input) [] mset hr
    simp only [calculate, hr, Bool.false_eq_true, if_false]
    exact h2

theorem map_return_and_record_accumulation_witness :
    (calculate exParse exStr exDescAll true false
        (InputData.dict [("a", "CCO"), ("bad", "bad")]) (some ["MolWt"])
        [⟨"z", none, some []⟩]).1 =
      .ok (.map [("a", ⟨some "CCO", some [("MW", some 3)]⟩),
        ("bad", ⟨some "bad", none⟩)]) ∧
    ((∃ res, (Output.map [("a", ⟨some "CCO", some [("MW", some 3)]⟩),
        ("bad", ⟨some "bad", none⟩)]) = .map res ∧
      (processEntries exParse exStr exDescAll true (some ["MolWt"])
        (entriesOf (InputData.dict [("a", "CCO"), ("bad", "bad")])) []
        [⟨"z", none, some []⟩]).1 = .ok res) ∧
    (calculate exParse exStr exDescAll true false
        (InputData.dict [("a", "CCO"), ("bad", "bad")]) (some ["MolWt"])
        [⟨"z", none, some []⟩]).2 =
      [⟨"z", none, some []⟩] ++
        (entriesOf (InputData.dict [("a", "CCO"), ("bad", "bad")])).filterMap
          (newRecord exParse exStr exDescAll true (some ["MolWt"]))) :=
  ⟨by decide, @map_return_and_record_accumulation Nat exParse exStr
    exDescAll true (InputData.dict [("a", "CCO"), ("bad", "bad")])
    (some ["MolWt"]) [⟨"z", none, some []⟩]
    (.map [("a", ⟨some "CCO", some [("MW", some 3)]⟩),
      ("bad", ⟨some "bad", none⟩)]) (by decide)⟩

/-- C8: a successful `calculate` call returns one entry per distinct
input name (the key list of the result mapping has no duplicates, is
contained in the normalized input's name sequence — hence preserves its
order — and covers exactly the names occurring in it); object items are
named by their string representation via the normalization. -/
theorem one_entry_per_distinct_name {Mol : Type}
    (parse : String → Option Mol) (strRep : Mol → String)
    (getDesc : String → Option (Mol → Option Value)) (ab : Bool)
    (input : InputData Mol) (props : Option (List String))
    (mset : MolSet) {res : Results}
    (h : (calculate parse strRep getDesc ab false input props mset).1 =
      .ok (.map res)) :
    (res.map Prod.fst).Nodup ∧
    List.Sublist (res.map Prod.fst) (inputNames strRep input) ∧
    (∀ x, x ∈ res.map Prod.fst ↔ x ∈ inputNames strRep input) := by
  cases hr : (processEntries parse strRep getDesc ab props
      (entriesOf input) [] mset).1 with
  | error e =>
    simp only [calculate, hr] at h
    exact absurd h (by simp)
  | ok res0 =>
    have hres : res0 = res := by
      simp only [calculate, hr, Bool.false_eq_true, if_false] at h
      simpa using h
    subst hres
    have hk : res0.map Prod.fst =
        (inputNames strRep input).foldl insKey [] := by
      simpa [inputNames] using
        processEntries_ok_keys parse strRep getDesc ab props
          (entriesOf input) [] mset hr
    refine ⟨?_, ?_, ?_⟩
    · rw [hk]
      exact foldl_insKey_nodup _ List.nodup_nil
    · rw [hk]
      simpa using foldl_insKey_sublist (inputNames strRep input) []
    · intro x
      rw [hk, foldl_insKey_mem]
      simp

theorem one_entry_per_distinct_name_witness :
    (calculate exParse exStr exDescAll true false
        (InputData.list [InputItem.dict [("a", "CCO"), ("b", "bad")],
          InputItem.mol 7, InputItem.dict [("a", "CC")]])
        (some ["MolWt"]) []).1 =
      .ok (.map [("a", ⟨some "CC", some [("MW", some 2)]⟩),
        ("b", ⟨some "bad", none⟩),
        ("7", ⟨none, some [("MW", some 7)]⟩)]) ∧
    (([("a", (⟨some "CC", some [("MW", some 2)]⟩ : ResultEntry)),
        ("b", ⟨some "bad", none⟩),
        ("7", ⟨none, some [("MW", some 7)]⟩)].map Prod.fst).Nodup ∧
    List.Sublist ([("a", (⟨some "CC", some [("MW", some 2)]⟩ : ResultEntry)),
        ("b", ⟨some "bad", none⟩),
        ("7", ⟨none, some [("MW", some 7)]⟩)].map Prod.fst)
      (inputNames exStr
        (InputData.list [InputItem.dict [("a", "CCO"), ("b", "bad")],
          InputItem.mol 7, InputItem.dict [("a", "CC")]])) ∧
    (∀ x, x ∈ [("a", (⟨some "CC", some [("MW", some 2)]⟩ : ResultEntry)),
        ("b", ⟨some "bad", none⟩),
        ("7", ⟨none, some [("MW", some 7)]⟩)].map Prod.fst ↔
      x ∈ inputNames exStr
        (InputData.list [InputItem.dict [("a", "CCO"), ("b", "bad")],
          InputItem.mol 7, InputItem.dict [("a", "CC")]]))) :=
  ⟨by decide, @one_entry_per_distinct_name Nat exParse exStr exDescAll
    true (InputData.list [InputItem.dict [("a", "CCO"), ("b", "bad")],
      InputItem.mol 7, InputItem.dict [("a", "CC")]]) (some ["MolWt"]) []
    [("a", ⟨some "CC", some [("MW", some 2)]⟩),
      ("b", ⟨some "bad", none⟩),
      ("7", ⟨none, some [("MW", some 7)]⟩)] (by decide)⟩

/-- C7 counterexample: a Structure Record with null properties makes the
export raise a `TypeError` (from unpacking `None`) instead of rendering
an all-missing row, and a parse-failed input item is never accumulated,
so the exported table omits it entirely (here: an empty table). -/
theorem null_properties_row_counterexample :
    toDataframe [⟨"x", none, none⟩] = .error .typeError ∧
    (calculate exParse exStr exDescAll true true
        (InputData.dict [("bad", "bad")]) (some ["MolWt"]) []).1 =
      .ok (.table []) := by
  decide

/-- C7 (amended): when every accumulated Structure Record carries a
non-null property mapping (the only kind `calculate` ever accumulates —
parse failures are not accumulated and so are omitted from the table),
the export succeeds with one row per distinct record name, keyed by
name, in accumulation order (duplicate names collapse onto one row);
each row is a record's property mapping merged with its identifier cell.
A null-properties record would instead raise a `TypeError`. -/
theorem table_rows_from_records (mset : MolSet)
    (hprops : ∀ m ∈ mset, m.properties.isSome) :
    ∃ t, toDataframe mset = .ok t ∧
      (t.map Prod.fst).Nodup ∧
      List.Sublist (t.map Prod.fst) (mset.map Molecule.name) ∧
      (∀ x, x ∈ t.map Prod.fst ↔ x ∈ mset.map Molecule.name) ∧
      ∀ p ∈ t, ∃ m ∈ mset, ∃ ps, m.properties = some ps ∧
        p = (m.name, rowOf ps m.smiles) := by
  rcases toDataframeGo_ok mset [] hprops with ⟨t, ht, hkeys, hmem⟩
  have hkeys' : t.map Prod.fst =
      (mset.map Molecule.name).foldl insKey [] := by
    simpa using hkeys
  refine ⟨t, ht, ?_, ?_, ?_, ?_⟩
  · rw [hkeys']
    exact foldl_insKey_nodup _ List.nodup_nil
  · rw [hkeys']
    simpa using foldl_insKey_sublist _ []
  · intro x
    rw [hkeys', foldl_insKey_mem]
    simp
  · intro p hp
    rcases hmem p hp with hpd | hrec
    · simp at hpd
    · exact hrec

theorem table_rows_from_records_witness :
    (∀ m ∈ [(⟨"a", some "CCO", some [("MW", some 3)]⟩ : Molecule),
        ⟨"a", some "CC", some [("MW", some 2)]⟩,
        ⟨"7", none, some [("MW", some 7)]⟩], m.properties.isSome) ∧
    (∃ t, toDataframe [(⟨"a", some "CCO", some [("MW", some 3)]⟩ : Molecule),
        ⟨"a", some "CC", some [("MW", some 2)]⟩,
        ⟨"7", none, some [("MW", some 7)]⟩] = .ok t ∧
      (t.map Prod.fst).Nodup ∧
      List.Sublist (t.map Prod.fst)
        ([(⟨"a", some "CCO", some [("MW", some 3)]⟩ : Molecule),
          ⟨"a", some "CC", some [("MW", some 2)]⟩,
          ⟨"7", none, some [("MW", some 7)]⟩].map Molecule.name) ∧
      (∀ x, x ∈ t.map Prod.fst ↔
        x ∈ [(⟨"a", some "CCO", some [("MW", some 3)]⟩ : Molecule),
          ⟨"a", some "CC", some [("MW", some 2)]⟩,
          ⟨"7", none, some [("MW", some 7)]⟩].map Molecule.name) ∧
      ∀ p ∈ t, ∃ m ∈ [(⟨"a", some "CCO", some [("MW", some 3)]⟩ : Molecule),
          ⟨"a", some "CC", some [("MW", some 2)]⟩,
          ⟨"7", none, some [("MW", some 7)]⟩],
        ∃ ps, m.properties = some ps ∧
          p = (m.name, rowOf ps m.smiles)) :=
  ⟨by decide, table_rows_from_records
    [⟨"a", some "CCO", some [("MW", some 3)]⟩,
      ⟨"a", some "CC", some [("MW", some 2)]⟩,
      ⟨"7", none, some [("MW", some 7)]⟩] (by decide)⟩

/-- C9: abbreviation toggling is a pure presentation transform — for
every input, requested-keys option and capability surface, the
`abbrev=False` and `abbrev=True` runs either raise the same exception or
produce result mappings with the same names, identifiers and property
values in the same positions, the property keys being the full versus
abbreviated display names of the same registry entries (likewise for the
accumulated records). -/
theorem abbrev_pure_presentation {Mol : Type}
    (parse : String → Option Mol) (strRep : Mol → String)
    (getDesc : String → Option (Mol → Option Value))
    (input : InputData Mol) (props : Option (List String))
    {msF msA : MolSet} (hms : pairedMolSet msF msA) :
    pairedOutcome
      (calculate parse strRep getDesc false false input props msF)
      (calculate parse strRep getDesc true false input props msA) := by
  have hrun := processEntries_abbrev parse strRep getDesc props
    (entriesOf input) List.Forall₂.nil hms
  cases hF : (processEntries parse strRep getDesc false props
      (entriesOf input) [] msF).1 with
  | ok rf =>
    cases hA : (processEntries parse strRep getDesc true props
        (entriesOf input) [] msA).1 with
    | ok ra =>
      have h1 : pairedResults rf ra := by
        have h := hrun.1
        rw [hF, hA] at h
        exact h
      have hcF : calculate parse strRep getDesc false false input props
          msF = (.ok (.map rf), (processEntries parse strRep getDesc
            false props (entriesOf input) [] msF).2) := by
        simp only [calculate, hF, Bool.false_eq_true, if_false]
      have hcA : calculate parse strRep getDesc true false input props
          msA = (.ok (.map ra), (processEntries parse strRep getDesc
            true props (entriesOf input) [] msA).2) := by
        simp only [calculate, hA, Bool.false_eq_true, if_false]
      rw [hcF, hcA]
      exact ⟨h1, hrun.2⟩
    | error ea =>
      exfalso
      have h := hrun.1
      rw [hF, hA] at h
      exact h
  | error ef =>
    cases hA : (processEntries parse strRep getDesc true props
        (entriesOf input) [] msA).1 with
    | ok ra =>
      exfalso
      have h := hrun.1
      rw [hF, hA] at h
      exact h
    | error ea =>
      have heq : ef = ea := by
        have h := hrun.1
        rw [hF, hA] at h
        exact h
      subst heq
      have hcF : calculate parse strRep getDesc false false input props
          msF = (.error ef, (processEntries parse strRep getDesc false
            props (entriesOf input) [] msF).2) := by
        simp only [calculate, hF]
      have hcA : calculate parse strRep getDesc true false input props
          msA = (.error ef, (processEntries parse strRep getDesc true
            props (entriesOf input) [] msA).2) := by
        simp only [calculate, hA]
      rw [hcF, hcA]
      exact ⟨rfl, hrun.2⟩

theorem abbrev_pure_presentation_witness :
    pairedMolSet [] [] ∧
    pairedOutcome
      (calculate exParse exStr exDescAll false false
        (InputData.dict [("a", "CCO"), ("bad", "bad")]) (some ["MolWt"])
        [])
      (calculate exParse exStr exDescAll true false
        (InputData.dict [("a", "CCO"), ("bad", "bad")]) (some ["MolWt"])
        []) :=
  ⟨List.Forall₂.nil, abbrev_pure_presentation exParse exStr exDescAll
    (InputData.dict [("a", "CCO"), ("bad", "bad")]) (some ["MolWt"])
    List.Forall₂.nil⟩

end MolProps
